import Mathlib

/-!
Verification of the `TuringMachine.py` simulator: a shallow embedding of the
`TuringMachine` class (tape with auto-extension, interpreter loop), the
`readMinimalProgram` file parser and the `generateUnaryMachine` helper,
together with theorems checking the specified behaviour.

Modelling conventions:
* Python's `deque` of cells is a `List Int`; `head` is an `Int` (the source
  never clamps it at construction time, so it may be any integer there).
* `deque` indexing (`self._cells[self._head]`) supports negative indices by
  wrapping once from the right and raises `IndexError` out of range, so
  `read`/`write` return `Option`.
* The `while` loop of `runProgram` is driven by the fuel `step_limit - step`;
  the loop condition evaluates `self.read()` before comparing `step` with
  `step_limit`, so the model performs that read even when the fuel is spent.
* A Python `dict` is an association list where insertion prepends and lookup
  takes the first match (so later insertions shadow earlier ones).
-/

/-- The tape of the machine: the deque of materialized cells plus the head. -/
structure Tape where
  cells : List Int
  head : Int
  deriving Repr, DecidableEq

/-- `TuringMachine.__init__`: stores the initial window and head; the `radix`
argument is accepted but never used. -/
def mkTuringMachine (initTape : List Int) (initHead : Int) (radix : Int) : Tape :=
  let _ := radix
  { cells := initTape, head := initHead }

namespace Tape

/-- `TuringMachine._move`: shift the head by `num`, extending the deque with
zeros on whichever side the head would leave the materialized window. -/
def move (t : Tape) (num : Int) : Tape :=
  let h := t.head + num
  if h < 0 then
    { cells := List.replicate h.natAbs 0 ++ t.cells, head := 0 }
  else if (t.cells.length : Int) ≤ h then
    { cells := t.cells ++ List.replicate (h - t.cells.length + 1).toNat 0, head := h }
  else
    { cells := t.cells, head := h }

/-- `TuringMachine.right`. -/
def right (t : Tape) (num : Int) : Tape := t.move num

/-- `TuringMachine.left`. -/
def left (t : Tape) (num : Int) : Tape := t.move (-num)

/-- The effective deque index of the head: a negative head wraps once from the
right, as Python sequence indexing does. -/
def idx (t : Tape) : Int :=
  if t.head < 0 then t.head + t.cells.length else t.head

/-- `TuringMachine.read`: the value under the head, `none` on `IndexError`. -/
def read (t : Tape) : Option Int :=
  if 0 ≤ t.idx then t.cells[t.idx.toNat]? else none

/-- `TuringMachine.write`: set the cell under the head, `none` on `IndexError`. -/
def write (t : Tape) (val : Int) : Option Tape :=
  if 0 ≤ t.idx ∧ t.idx < t.cells.length then
    some { t with cells := t.cells.set t.idx.toNat val }
  else none

end Tape

/-- One entry of a transition table: key `(state, cellValue)`, value
`(actionKind, actionParam, nextState)`. -/
abbrev ProgEntry := (Int × Int) × (String × Int × Int)

/-- A transition table, modelling the Python `dict`: an association list where
the first match wins. -/
abbrev Program := List ProgEntry

/-- Lookup in the transition table (Python `program[state, value]` /
`(state, value) in program`). -/
def progLookup : Program → Int × Int → Option (String × Int × Int)
  | [], _ => none
  | (k, v) :: rest, key => if k = key then some v else progLookup rest key

/-- One snapshot of the debug log: `{"state": ..., "head": ..., "tape": ...}`. -/
structure Snapshot where
  state : Int
  head : Int
  tape : List Int
  deriving Repr, DecidableEq

/-- One iteration of the `runProgram` loop body: read the cell, look up the
transition, apply the action. `.ok none` means the loop condition failed (no
matching entry); `.error` is a Python exception escaping the loop. -/
def stepOnce (prog : Program) (state : Int) (t : Tape) :
    Except Unit (Option (Int × Tape)) :=
  match t.read with
  | none => .error ()
  | some v =>
    match progLookup prog (state, v) with
    | none => .ok none
    | some (kind, param, next) =>
      if kind = "R" then .ok (some (next, t.right param))
      else if kind = "L" then .ok (some (next, t.left param))
      else if kind = "W" then
        match t.write param with
        | none => .error ()
        | some t2 => .ok (some (next, t2))
      else .ok (some (next, t))

/-- The `while` loop of `runProgram`, by recursion on the remaining fuel
`step_limit - step`. Returns the final state, tape and log, and the number of
executed transitions. At fuel 0 the loop condition still evaluates
`self.read()` before the `step < step_limit` test short-circuits. -/
def runLoop (prog : Program) (debug : Bool) :
    Nat → Int → Tape → List Snapshot → Except Unit (Int × Tape × List Snapshot × Nat)
  | 0, state, t, log =>
    match t.read with
    | none => .error ()
    | some _ => .ok (state, t, log, 0)
  | fuel + 1, state, t, log =>
    match stepOnce prog state t with
    | .error e => .error e
    | .ok none => .ok (state, t, log, 0)
    | .ok (some (next, t2)) =>
      match runLoop prog debug fuel next t2
          (if debug then log ++ [⟨next, t2.head, t2.cells⟩] else log) with
      | .error e => .error e
      | .ok (s, t3, log3, n) => .ok (s, t3, log3, n + 1)

/-- The observable outcome of `TuringMachine.runProgram`: the mutated tape, the
final state and step count, the debug log, and the Python return value
(`log` when `debug` else `None`). -/
structure RunResult where
  tape : Tape
  state : Int
  steps : Nat
  log : List Snapshot
  ret : Option (List Snapshot)
  deriving Repr, DecidableEq

/-- `TuringMachine.runProgram`: state `1`, step `0`, initial snapshot when
debugging, then the loop. -/
def runProgram (t : Tape) (prog : Program) (step_limit : Nat) (debug : Bool) :
    Except Unit RunResult :=
  match runLoop prog debug step_limit 1 t
      (if debug then [⟨1, t.head, t.cells⟩] else []) with
  | .error e => .error e
  | .ok (s, t2, log, n) => .ok ⟨t2, s, n, log, if debug then some log else none⟩

/-- Splitting a list of characters at every space, keeping empty pieces
(the behaviour of splitting on a one-character delimiter). -/
def splitOnSpace : List Char → List (List Char)
  | [] => [[]]
  | c :: rest =>
    if c = ' ' then [] :: splitOnSpace rest
    else
      match splitOnSpace rest with
      | [] => [[c]]
      | w :: ws => (c :: w) :: ws

/-- `csv.reader` with delimiter `' '` on one quote-free line: a blank line
yields no fields, any other line splits on single spaces. -/
def lineFields (line : String) : List String :=
  if line = "" then [] else (splitOnSpace line.toList).map (fun w => ⟨w⟩)

/-- The numeric value of a decimal digit character. -/
def digitVal? (c : Char) : Option Nat :=
  if '0' ≤ c ∧ c ≤ '9' then some (c.toNat - '0'.toNat) else none

/-- Left-to-right decimal accumulation over a digit string. -/
def digitsAux : List Char → Nat → Option Nat
  | [], acc => some acc
  | c :: rest, acc =>
    match digitVal? c with
    | none => none
    | some d => digitsAux rest (acc * 10 + d)

/-- Python's `int()` on a field, for plain decimal literals with an optional
leading minus sign; `none` models the raised `ValueError` on anything else. -/
def parseInt? (s : String) : Option Int :=
  match s.toList with
  | [] => none
  | ['-'] => none
  | '-' :: c :: rest => Option.map (fun n => -(n : Int)) (digitsAux (c :: rest) 0)
  | c :: rest => Option.map (fun n => (n : Int)) (digitsAux (c :: rest) 0)

/-- The body of `readMinimalProgram`'s reading loop over the lines of the file,
accumulating the dict built so far. Rows with no fields are skipped; fields
beyond the fourth are ignored; a missing field or a failing `int()` is a raised
exception, i.e. `none`. -/
def readMinimalProgramGo : List String → Program → Option Program
  | [], prog => some prog
  | line :: rest, prog =>
    match lineFields line with
    | [] => readMinimalProgramGo rest prog
    | f0 :: f1 :: f2 :: f3 :: _ =>
      match parseInt? f0, parseInt? f1, parseInt? f3 with
      | some cs, some cv, some ns =>
        readMinimalProgramGo rest
          (((cs, cv),
            ((if f2 = "R" ∨ f2 = "L" then f2 else "W"),
             (if f2 = "0" then (0 : Int) else 1),
             ns)) :: prog)
      | _, _, _ => none
    | _ => none

/-- `readMinimalProgram`, over the list of lines of the file. -/
def readMinimalProgram (lines : List String) : Option Program :=
  readMinimalProgramGo lines []

/-- The tape contents built by `generateUnaryMachine`'s loop: each value `v`
contributes `v+1` ones and a trailing zero. -/
def unaryTapeList : List Nat → List Int
  | [] => []
  | v :: rest => List.replicate (v + 1) 1 ++ [0] ++ unaryTapeList rest

/-- `generateUnaryMachine`: builds the unary tape and constructs the machine
with the default head `0` (and default radix `1`). -/
def generateUnaryMachine (l : List Nat) : Tape :=
  mkTuringMachine (unaryTapeList l) 0 1

/-- The head-bounds invariant claimed by the spec for tapes. -/
def Tape.HeadInv (t : Tape) : Prop :=
  0 ≤ t.head ∧ t.head < (t.cells.length : Int)

instance (t : Tape) : Decidable t.HeadInv := by
  unfold Tape.HeadInv; infer_instance

/-! ### Basic lemmas about the tape operations -/

lemma Tape.read_of_nonneg (t : Tape) (h : 0 ≤ t.head) :
    t.read = t.cells[t.head.toNat]? := by
  simp only [Tape.read, Tape.idx]
  rw [if_neg (not_lt.mpr h), if_pos h]

lemma Tape.write_of_inv (t : Tape) (v : Int) (h : t.HeadInv) :
    t.write v = some { t with cells := t.cells.set t.head.toNat v } := by
  obtain ⟨h0, h1⟩ := h
  simp only [Tape.write, Tape.idx]
  rw [if_neg (not_lt.mpr h0), if_pos ⟨h0, h1⟩]

lemma Tape.move_of_neg (t : Tape) (num : Int) (h : t.head + num < 0) :
    t.move num = ⟨List.replicate (t.head + num).natAbs 0 ++ t.cells, 0⟩ := by
  simp only [Tape.move]
  rw [if_pos h]

lemma Tape.move_of_big (t : Tape) (num : Int) (h0 : ¬ t.head + num < 0)
    (h1 : (t.cells.length : Int) ≤ t.head + num) :
    t.move num =
      ⟨t.cells ++ List.replicate (t.head + num - t.cells.length + 1).toNat 0,
       t.head + num⟩ := by
  simp only [Tape.move]
  rw [if_neg h0, if_pos h1]

lemma Tape.move_of_mid (t : Tape) (num : Int) (h0 : ¬ t.head + num < 0)
    (h1 : ¬ (t.cells.length : Int) ≤ t.head + num) :
    t.move num = ⟨t.cells, t.head + num⟩ := by
  simp only [Tape.move]
  rw [if_neg h0, if_neg h1]

/-! ### C9: the radix parameter has no observable effect -/

/-- C9: for every initial tape and initial head offset and any two radix
values, the two constructed machines are identical, so every subsequent
operation on them behaves identically — the radix argument is never used. -/
theorem radix_noninterference :
    ∀ (initTape : List Int) (initHead r1 r2 : Int),
      mkTuringMachine initTape initHead r1 = mkTuringMachine initTape initHead r2 := by
  intro initTape initHead r1 r2
  rfl

/-! ### C8: unary tape construction -/

/-- C8: `generateUnaryMachine` renders each value `v` of the input sequence,
in order, as `v+1` one-cells followed by a single zero separator, with the head
initialized to index 0; in particular `[2, 0, 1]` yields `1 1 1 0 1 0 1 1 0`. -/
theorem unary_construction :
    (∀ l : List Nat,
        (generateUnaryMachine l).head = 0 ∧
        (generateUnaryMachine l).cells =
          (l.map (fun v => List.replicate (v + 1) (1 : Int) ++ [0])).flatten) ∧
    (generateUnaryMachine [2, 0, 1]).cells = [1, 1, 1, 0, 1, 0, 1, 1, 0] ∧
    (generateUnaryMachine [2, 0, 1]).head = 0 := by
  refine ⟨fun l => ⟨rfl, ?_⟩, by decide, rfl⟩
  show unaryTapeList l = _
  induction l with
  | nil => rfl
  | cons v rest ih => simp [unaryTapeList, ih]

/-! ### C5: head-bounds invariant (construction does not validate the head) -/

/-- C5 counterexample: constructing a machine with the one-cell initial tape
`[0]` and initial head offset `5` leaves the head at 5, outside
`[0, len(cells))` — the constructor never clamps or checks the head. -/
theorem head_bounds_counterexample :
    ¬ (mkTuringMachine [0] 5 1).HeadInv := by
  decide

/-- C5 amended: when a Tape is created with an initial head offset inside
`[0, len(initTape))`, the head-bounds invariant holds after construction;
every `_move` (hence `moveLeft`/`moveRight`) establishes it unconditionally;
`write` succeeds under the invariant and preserves it; `read` succeeds under
the invariant and changes nothing. -/
theorem head_bounds_invariant :
    (∀ (initTape : List Int) (initHead radix : Int),
        0 ≤ initHead → initHead < (initTape.length : Int) →
        (mkTuringMachine initTape initHead radix).HeadInv) ∧
    (∀ (t : Tape) (n : Int), (t.move n).HeadInv) ∧
    (∀ (t : Tape) (n : Int), (t.right n).HeadInv ∧ (t.left n).HeadInv) ∧
    (∀ (t : Tape) (v : Int), t.HeadInv →
        ∃ t2, t.write v = some t2 ∧ t2.HeadInv) ∧
    (∀ t : Tape, t.HeadInv → t.read.isSome) := by
  have hmove : ∀ (t : Tape) (n : Int), (t.move n).HeadInv := by
    intro t n
    unfold Tape.HeadInv
    simp only [Tape.move]
    split_ifs with h0 h1
    all_goals dsimp only
    · simp only [List.length_append, List.length_replicate]
      omega
    · simp only [List.length_append, List.length_replicate]
      omega
    · omega
  refine ⟨fun initTape initHead radix h0 h1 => ⟨h0, h1⟩,
          hmove,
          fun t n => ⟨hmove t n, hmove t (-n)⟩,
          fun t v h => ?_,
          fun t h => ?_⟩
  · refine ⟨_, t.write_of_inv v h, h.1, ?_⟩
    simpa [List.length_set] using h.2
  · rw [t.read_of_nonneg h.1]
    have hlt : t.head.toNat < t.cells.length := by
      have h1 := h.1
      have h2 := h.2
      omega
    rw [List.getElem?_eq_getElem hlt]
    rfl

/-- C5 witness: the amended invariant facts at concrete inputs. -/
theorem head_bounds_invariant_witness :
    (mkTuringMachine [3, 4] 1 1).HeadInv ∧
    (Tape.move ⟨[3, 4], 1⟩ (-7)).HeadInv ∧
    (∃ t2, Tape.write ⟨[3, 4], 1⟩ 9 = some t2 ∧ t2.HeadInv) ∧
    (Tape.read ⟨[3, 4], 1⟩).isSome := by
  refine ⟨head_bounds_invariant.1 [3, 4] 1 1 (by decide) (by decide),
          head_bounds_invariant.2.1 ⟨[3, 4], 1⟩ (-7),
          head_bounds_invariant.2.2.2.1 ⟨[3, 4], 1⟩ 9 (by decide),
          head_bounds_invariant.2.2.2.2 ⟨[3, 4], 1⟩ (by decide)⟩

/-! ### C2: a missing transition halts the run normally -/

/-- C2: when the table has no entry for `(1, tape.read())`, `runProgram`
performs zero transitions, leaves the tape unchanged and returns normally;
more generally any `(state, value)` pair absent from the table makes the loop
body halt rather than raise. -/
theorem halt_on_missing_transition :
    (∀ (t : Tape) (prog : Program) (limit : Nat) (debug : Bool) (v : Int),
        t.read = some v → progLookup prog (1, v) = none →
        runProgram t prog limit debug =
          .ok ⟨t, 1, 0, (if debug then [⟨1, t.head, t.cells⟩] else []),
               (if debug then some [⟨1, t.head, t.cells⟩] else none)⟩) ∧
    (∀ (prog : Program) (s : Int) (t : Tape) (v : Int),
        t.read = some v → progLookup prog (s, v) = none →
        stepOnce prog s t = .ok none) := by
  have hstep : ∀ (prog : Program) (s : Int) (t : Tape) (v : Int),
      t.read = some v → progLookup prog (s, v) = none →
      stepOnce prog s t = .ok none := by
    intro prog s t v hr hm
    simp only [stepOnce, hr, hm]
  refine ⟨?_, hstep⟩
  intro t prog limit debug v hr hm
  have hloop : ∀ log, runLoop prog debug limit 1 t log = .ok (1, t, log, 0) := by
    intro log
    cases limit with
    | zero => simp only [runLoop.eq_1, hr]
    | succ n => simp only [runLoop.eq_2, hstep prog 1 t v hr hm]
  cases debug with
  | false => simp [runProgram, hloop]
  | true => simp [runProgram, hloop]

/-- C2 witness: the empty table on a one-cell tape, with and without debug. -/
theorem halt_on_missing_transition_witness :
    runProgram ⟨[7], 0⟩ [] 3 true =
      .ok ⟨⟨[7], 0⟩, 1, 0, [⟨1, 0, [7]⟩], some [⟨1, 0, [7]⟩]⟩ ∧
    stepOnce [] 2 ⟨[7], 0⟩ = .ok none := by
  constructor
  · exact halt_on_missing_transition.1 ⟨[7], 0⟩ [] 3 true 7 (by decide) rfl
  · exact halt_on_missing_transition.2 [] 2 ⟨[7], 0⟩ 7 (by decide) rfl

/-! ### C10: unrecognized action kinds transition silently -/

/-- C10: when the matched table entry's action kind is none of `"R"`, `"L"`,
`"W"`, the loop body performs no tape operation and no error: it just moves to
the entry's next state; the surrounding loop still counts the step and, when
debugging, appends the snapshot of the unchanged tape. -/
theorem unknown_action_silent :
    (∀ (prog : Program) (state v : Int) (t : Tape) (kind : String) (param next : Int),
        t.read = some v →
        progLookup prog (state, v) = some (kind, param, next) →
        kind ≠ "R" → kind ≠ "L" → kind ≠ "W" →
        stepOnce prog state t = .ok (some (next, t))) ∧
    (∀ (prog : Program) (debug : Bool) (fuel : Nat) (state v : Int) (t : Tape)
        (log : List Snapshot) (kind : String) (param next : Int),
        t.read = some v →
        progLookup prog (state, v) = some (kind, param, next) →
        kind ≠ "R" → kind ≠ "L" → kind ≠ "W" →
        runLoop prog debug (fuel + 1) state t log =
          Except.map (fun r => (r.1, r.2.1, r.2.2.1, r.2.2.2 + 1))
            (runLoop prog debug fuel next t
              (if debug then log ++ [⟨next, t.head, t.cells⟩] else log))) := by
  have hstep : ∀ (prog : Program) (state v : Int) (t : Tape) (kind : String)
      (param next : Int),
      t.read = some v →
      progLookup prog (state, v) = some (kind, param, next) →
      kind ≠ "R" → kind ≠ "L" → kind ≠ "W" →
      stepOnce prog state t = .ok (some (next, t)) := by
    intro prog state v t kind param next hr hm hR hL hW
    simp only [stepOnce, hr, hm, if_neg hR, if_neg hL, if_neg hW]
  refine ⟨hstep, ?_⟩
  intro prog debug fuel state v t log kind param next hr hm hR hL hW
  have hstep2 : stepOnce prog state t = .ok (some (next, t)) :=
    hstep prog state v t kind param next hr hm hR hL hW
  simp only [runLoop.eq_2, hstep2]
  cases hres : runLoop prog debug fuel next t
      (if debug then log ++ [⟨next, t.head, t.cells⟩] else log) with
  | error e => simp [Except.map]
  | ok r =>
    obtain ⟨s, t3, log3, n⟩ := r
    simp [Except.map]

/-- C10 witness: a table entry with action kind `"X"` leaves the tape intact,
transitions to state 4 and is logged as a normal step. -/
theorem unknown_action_silent_witness :
    stepOnce [((1, 6), ("X", 9, 4))] 1 ⟨[5, 6], 1⟩ =
      .ok (some (4, ⟨[5, 6], 1⟩)) ∧
    runLoop [((1, 6), ("X", 9, 4))] true 1 1 ⟨[5, 6], 1⟩ [⟨1, 1, [5, 6]⟩] =
      Except.map (fun r => (r.1, r.2.1, r.2.2.1, r.2.2.2 + 1))
        (runLoop [((1, 6), ("X", 9, 4))] true 0 4 ⟨[5, 6], 1⟩
          (if true then [⟨1, 1, [5, 6]⟩] ++ [⟨4, 1, [5, 6]⟩] else [⟨1, 1, [5, 6]⟩])) := by
  constructor
  · exact unknown_action_silent.1 [((1, 6), ("X", 9, 4))] 1 6 ⟨[5, 6], 1⟩ "X" 9 4
      (by decide) rfl (by decide) (by decide) (by decide)
  · exact unknown_action_silent.2 [((1, 6), ("X", 9, 4))] true 0 1 6 ⟨[5, 6], 1⟩
      [⟨1, 1, [5, 6]⟩] "X" 9 4 (by decide) rfl (by decide) (by decide) (by decide)

/-! ### C1: the move contract -/

/-- What `_move` does to the head and the cells, in the three regimes of the
new head position: negative (prepend and re-anchor), in-window (no
materialization), beyond the window (append up to the new head). -/
lemma move_spec (t : Tape) (num : Int) :
    (t.head + num < 0 →
       (t.move num).head = 0 ∧
       (t.move num).cells.length = (t.head + num).natAbs + t.cells.length ∧
       (∀ i : Nat, i < (t.head + num).natAbs → (t.move num).cells[i]? = some 0) ∧
       (∀ i : Nat, (t.move num).cells[(t.head + num).natAbs + i]? = t.cells[i]?)) ∧
    (0 ≤ t.head + num → t.head + num < (t.cells.length : Int) →
       t.move num = ⟨t.cells, t.head + num⟩) ∧
    ((t.cells.length : Int) ≤ t.head + num →
       (t.move num).head = t.head + num ∧
       ((t.move num).cells.length : Int) = t.head + num + 1 ∧
       (∀ i : Nat, i < t.cells.length → (t.move num).cells[i]? = t.cells[i]?) ∧
       (∀ i : Nat, t.cells.length ≤ i → (i : Int) ≤ t.head + num →
          (t.move num).cells[i]? = some 0)) := by
  refine ⟨fun h0 => ?_, fun h0 h1 => ?_, fun h1 => ?_⟩
  · rw [Tape.move_of_neg t num h0]
    dsimp only
    refine ⟨rfl, ?_, fun i hi => ?_, fun i => ?_⟩
    · rw [List.length_append, List.length_replicate]
    · rw [List.getElem?_append_left (by simpa using hi)]
      simp [List.getElem?_replicate, hi]
    · rw [List.getElem?_append_right (by simp)]
      rw [List.length_replicate]
      have hsub : (t.head + num).natAbs + i - (t.head + num).natAbs = i := by omega
      rw [hsub]
  · rw [Tape.move_of_mid t num (by omega) (by omega)]
  · rw [Tape.move_of_big t num (by omega) h1]
    dsimp only
    refine ⟨rfl, ?_, fun i hi => ?_, fun i hi1 hi2 => ?_⟩
    · rw [List.length_append, List.length_replicate]
      omega
    · rw [List.getElem?_append_left hi]
    · rw [List.getElem?_append_right hi1]
      rw [List.getElem?_replicate]
      rw [if_pos (by omega)]

/-- C1: for every tape and every non-negative `n`, `right n` and `left n`
always produce a tape; when the new head would be negative, exactly
`abs(newHead)` zero cells are prepended and the head re-anchors to 0; when it
stays in the window nothing is materialized; when it would pass the end,
zeros are appended so the length becomes `newHead + 1`, old cells keep their
values and every newly materialized cell is 0. -/
theorem tape_move_contract :
    ∀ (t : Tape) (n : Nat),
      ((t.head + n < 0 →
         (t.right n).head = 0 ∧
         (t.right n).cells.length = (t.head + n).natAbs + t.cells.length ∧
         (∀ i : Nat, i < (t.head + n).natAbs → (t.right n).cells[i]? = some 0) ∧
         (∀ i : Nat, (t.right n).cells[(t.head + n).natAbs + i]? = t.cells[i]?)) ∧
       (0 ≤ t.head + n → t.head + n < (t.cells.length : Int) →
         t.right n = ⟨t.cells, t.head + n⟩) ∧
       ((t.cells.length : Int) ≤ t.head + n →
         (t.right n).head = t.head + n ∧
         ((t.right n).cells.length : Int) = t.head + n + 1 ∧
         (∀ i : Nat, i < t.cells.length → (t.right n).cells[i]? = t.cells[i]?) ∧
         (∀ i : Nat, t.cells.length ≤ i → (i : Int) ≤ t.head + n →
            (t.right n).cells[i]? = some 0))) ∧
      ((t.head - n < 0 →
         (t.left n).head = 0 ∧
         (t.left n).cells.length = (t.head - n).natAbs + t.cells.length ∧
         (∀ i : Nat, i < (t.head - n).natAbs → (t.left n).cells[i]? = some 0) ∧
         (∀ i : Nat, (t.left n).cells[(t.head - n).natAbs + i]? = t.cells[i]?)) ∧
       (0 ≤ t.head - n → t.head - n < (t.cells.length : Int) →
         t.left n = ⟨t.cells, t.head - n⟩) ∧
       ((t.cells.length : Int) ≤ t.head - n →
         (t.left n).head = t.head - n ∧
         ((t.left n).cells.length : Int) = t.head - n + 1 ∧
         (∀ i : Nat, i < t.cells.length → (t.left n).cells[i]? = t.cells[i]?) ∧
         (∀ i : Nat, t.cells.length ≤ i → (i : Int) ≤ t.head - n →
            (t.left n).cells[i]? = some 0))) := by
  intro t n
  constructor
  · exact move_spec t n
  · have h := move_spec t (-(n : Int))
    simp only [← sub_eq_add_neg] at h
    exact h

/-- C1 witness: from head 0 on a two-cell tape, `right 5` extends to the
right with zeros and `left 3` prepends three zeros and re-anchors. -/
theorem tape_move_contract_witness :
    (Tape.right ⟨[1, 2], 0⟩ 5).head = 5 ∧
    (Tape.right ⟨[1, 2], 0⟩ 5).cells[4]? = some 0 ∧
    (Tape.left ⟨[1, 2], 0⟩ 3).head = 0 ∧
    (Tape.left ⟨[1, 2], 0⟩ 3).cells.length = 5 ∧
    (Tape.left ⟨[1, 2], 0⟩ 3).cells[0]? = some 0 := by
  have hR := (tape_move_contract ⟨[1, 2], 0⟩ 5).1.2.2 (by decide)
  have hL := (tape_move_contract ⟨[1, 2], 0⟩ 3).2.1 (by decide)
  refine ⟨?_, ?_, ?_, ?_, ?_⟩
  · simpa using hR.1
  · simpa using hR.2.2.2 4 (by decide) (by decide)
  · simpa using hL.1
  · simpa using hL.2.1
  · simpa using hL.2.2.1 0 (by decide)

/-! ### C3: the step limit bounds the run -/

/-- The forever-looping one-rule table `{(1,0): ("R",1,1)}`. -/
def loopRightProg : Program := [((1, 0), ("R", 1, 1))]

/-- The loop executes at most `fuel` transitions. -/
lemma runLoop_steps_le (prog : Program) (debug : Bool) :
    ∀ (fuel : Nat) (state : Int) (t : Tape) (log : List Snapshot)
      (s : Int) (t2 : Tape) (log2 : List Snapshot) (n : Nat),
      runLoop prog debug fuel state t log = .ok (s, t2, log2, n) → n ≤ fuel := by
  intro fuel
  induction fuel with
  | zero =>
    intro state t log s t2 log2 n h
    rw [runLoop.eq_1] at h
    cases hr : t.read with
    | none => rw [hr] at h; simp at h
    | some v =>
      rw [hr] at h
      simp only [Except.ok.injEq, Prod.mk.injEq] at h
      omega
  | succ f ih =>
    intro state t log s t2 log2 n h
    rw [runLoop.eq_2] at h
    cases hstep : stepOnce prog state t with
    | error e => rw [hstep] at h; simp at h
    | ok o =>
      rw [hstep] at h
      cases o with
      | none =>
        simp only [Except.ok.injEq, Prod.mk.injEq] at h
        omega
      | some p =>
        obtain ⟨next, tn⟩ := p
        dsimp only at h
        cases hrec : runLoop prog debug f next tn
            (if debug then log ++ [⟨next, tn.head, tn.cells⟩] else log) with
        | error e => rw [hrec] at h; simp at h
        | ok q =>
          obtain ⟨s1, t1, log1, n1⟩ := q
          rw [hrec] at h
          simp only [Except.ok.injEq, Prod.mk.injEq] at h
          have := ih next tn
            (if debug then log ++ [⟨next, tn.head, tn.cells⟩] else log)
            s1 t1 log1 n1 hrec
          omega

/-- Reading an all-zero tape with the head inside the window yields 0. -/
lemma read_replicate (m h : Nat) (hh : h < m) :
    Tape.read ⟨List.replicate m 0, (h : Int)⟩ = some 0 := by
  rw [Tape.read_of_nonneg ⟨List.replicate m 0, (h : Int)⟩ (by positivity)]
  simp [List.getElem?_replicate, hh]

/-- On an all-zero tape the one-rule right-mover never halts on its own: it
runs for exactly the whole fuel, keeps state 1, keeps every cell zero, and
moves the head one cell right per step. -/
lemma runLoop_right_forever :
    ∀ (fuel m h : Nat) (log : List Snapshot), h < m →
      ∃ m2 : Nat, h + fuel < m2 ∧
        runLoop loopRightProg false fuel 1 ⟨List.replicate m 0, (h : Int)⟩ log =
          .ok (1, ⟨List.replicate m2 0, ((h + fuel : Nat) : Int)⟩, log, fuel) := by
  intro fuel
  induction fuel with
  | zero =>
    intro m h log hh
    refine ⟨m, by omega, ?_⟩
    rw [runLoop.eq_1, read_replicate m h hh, Nat.add_zero]
  | succ f ih =>
    intro m h log hh
    have hstep : stepOnce loopRightProg 1 ⟨List.replicate m 0, (h : Int)⟩ =
        .ok (some (1, Tape.move ⟨List.replicate m 0, (h : Int)⟩ 1)) := by
      simp only [stepOnce, read_replicate m h hh]
      simp [progLookup, loopRightProg, Tape.right]
    by_cases hcase : h + 1 < m
    · obtain ⟨m2, hm2, hrec⟩ := ih m (h + 1) log hcase
      refine ⟨m2, by omega, ?_⟩
      have hmv : Tape.move ⟨List.replicate m 0, (h : Int)⟩ 1 =
          ⟨List.replicate m 0, ((h + 1 : Nat) : Int)⟩ := by
        rw [(move_spec ⟨List.replicate m 0, (h : Int)⟩ 1).2.1
          (by push_cast; omega)
          (by simp only [List.length_replicate]; omega)]
        dsimp only
        rw [Tape.mk.injEq]
        exact ⟨rfl, by omega⟩
      rw [runLoop.eq_2, hstep, hmv]
      dsimp only
      simp only [Bool.false_eq_true, if_false]
      rw [hrec]
      have harith : h + 1 + f = h + (f + 1) := by omega
      rw [harith]
    · obtain ⟨m2, hm2, hrec⟩ := ih (m + 1) (h + 1) log (by omega)
      refine ⟨m2, by omega, ?_⟩
      have hmv : Tape.move ⟨List.replicate m 0, (h : Int)⟩ 1 =
          ⟨List.replicate (m + 1) 0, ((h + 1 : Nat) : Int)⟩ := by
        rw [Tape.move_of_big ⟨List.replicate m 0, (h : Int)⟩ 1
          (by push_cast; omega)
          (by simp only [List.length_replicate]; omega)]
        dsimp only
        rw [Tape.mk.injEq]
        constructor
        · have hone : ((h : Int) + 1 - ((List.replicate m (0 : Int)).length : Int) + 1).toNat
              = 1 := by
            simp only [List.length_replicate]
            omega
          rw [hone, List.replicate_one]
          exact (List.replicate_succ' m 0).symm
        · omega
      rw [runLoop.eq_2, hstep, hmv]
      dsimp only
      simp only [Bool.false_eq_true, if_false]
      rw [hrec]
      have harith : h + 1 + f = h + (f + 1) := by omega
      rw [harith]

/-- C3: `runProgram` executes at most `stepLimit` transitions, for every tape,
table, limit and debug flag; and on an all-zero tape the single-rule table
`{(1,0): (MoveRight,1,1)}` executes exactly `stepLimit` transitions and leaves
the head exactly `stepLimit` cells right of its start. -/
theorem step_limit_termination :
    (∀ (t : Tape) (prog : Program) (limit : Nat) (debug : Bool) (r : RunResult),
        runProgram t prog limit debug = .ok r → r.steps ≤ limit) ∧
    (∀ (limit m h : Nat), h < m →
        ∃ m2 : Nat, h + limit < m2 ∧
          runProgram ⟨List.replicate m 0, (h : Int)⟩ loopRightProg limit false =
            .ok ⟨⟨List.replicate m2 0, ((h + limit : Nat) : Int)⟩, 1, limit, [], none⟩) := by
  constructor
  · intro t prog limit debug r hrun
    unfold runProgram at hrun
    cases hloop : runLoop prog debug limit 1 t
        (if debug then [⟨1, t.head, t.cells⟩] else []) with
    | error e => rw [hloop] at hrun; simp at hrun
    | ok q =>
      obtain ⟨s, t2, log2, n⟩ := q
      rw [hloop] at hrun
      simp only [Except.ok.injEq] at hrun
      have hn := runLoop_steps_le prog debug limit 1 t
        (if debug then [⟨1, t.head, t.cells⟩] else []) s t2 log2 n hloop
      rw [← hrun]
      exact hn
  · intro limit m h hh
    obtain ⟨m2, hm2, hrec⟩ := runLoop_right_forever limit m h
      (if false then [⟨1, (⟨List.replicate m 0, (h : Int)⟩ : Tape).head,
        (⟨List.replicate m 0, (h : Int)⟩ : Tape).cells⟩] else []) hh
    refine ⟨m2, hm2, ?_⟩
    unfold runProgram
    rw [hrec]
    rfl

/-- C3 witness: two steps of the right-mover from head 0 on a one-cell zero
tape, and the steps bound extracted from that run. -/
theorem step_limit_termination_witness :
    ∃ m2 : Nat, 0 + 2 < m2 ∧
      runProgram ⟨List.replicate 1 0, ((0 : Nat) : Int)⟩ loopRightProg 2 false =
        .ok ⟨⟨List.replicate m2 0, ((0 + 2 : Nat) : Int)⟩, 1, 2, [], none⟩ :=
  step_limit_termination.2 2 1 0 (by decide)

/-! ### C4: the debug trace -/

/-- Two consecutive snapshots of the log are related by exactly one executed
transition of the loop body. -/
def SnapStep (prog : Program) (a b : Snapshot) : Prop :=
  stepOnce prog a.state ⟨a.tape, a.head⟩ = .ok (some (b.state, ⟨b.tape, b.head⟩))

/-- With debugging on, the loop appends one post-transition snapshot per
executed step, and consecutive appended snapshots follow the step relation
starting from the configuration the loop was entered with. -/
lemma runLoop_log_spec (prog : Program) :
    ∀ (fuel : Nat) (state : Int) (t : Tape) (log : List Snapshot)
      (s : Int) (t2 : Tape) (log2 : List Snapshot) (n : Nat),
      runLoop prog true fuel state t log = .ok (s, t2, log2, n) →
      ∃ ext : List Snapshot, log2 = log ++ ext ∧ ext.length = n ∧
        List.Chain' (SnapStep prog) (⟨state, t.head, t.cells⟩ :: ext) := by
  intro fuel
  induction fuel with
  | zero =>
    intro state t log s t2 log2 n h
    rw [runLoop.eq_1] at h
    cases hr : t.read with
    | none => rw [hr] at h; simp at h
    | some v =>
      rw [hr] at h
      simp only [Except.ok.injEq, Prod.mk.injEq] at h
      obtain ⟨h1, h2, h3, h4⟩ := h
      exact ⟨[], by simp [← h3], by simpa using h4, List.chain'_singleton _⟩
  | succ f ih =>
    intro state t log s t2 log2 n h
    rw [runLoop.eq_2] at h
    cases hstep : stepOnce prog state t with
    | error e => rw [hstep] at h; simp at h
    | ok o =>
      rw [hstep] at h
      cases o with
      | none =>
        simp only [Except.ok.injEq, Prod.mk.injEq] at h
        obtain ⟨h1, h2, h3, h4⟩ := h
        exact ⟨[], by simp [← h3], by simpa using h4, List.chain'_singleton _⟩
      | some p =>
        obtain ⟨next, tn⟩ := p
        dsimp only at h
        simp only [eq_self_iff_true, if_true] at h
        cases hrec : runLoop prog true f next tn (log ++ [⟨next, tn.head, tn.cells⟩]) with
        | error e => rw [hrec] at h; simp at h
        | ok q =>
          obtain ⟨s1, t1, log1, n1⟩ := q
          rw [hrec] at h
          simp only [Except.ok.injEq, Prod.mk.injEq] at h
          obtain ⟨hs, ht, hlog, hn⟩ := h
          obtain ⟨ext2, hext2, hlen2, hchain2⟩ :=
            ih next tn (log ++ [⟨next, tn.head, tn.cells⟩]) s1 t1 log1 n1 hrec
          refine ⟨⟨next, tn.head, tn.cells⟩ :: ext2, ?_, ?_, ?_⟩
          · rw [← hlog, hext2]
            simp
          · simp only [List.length_cons]
            omega
          · rw [List.chain'_cons]
            refine ⟨?_, hchain2⟩
            show SnapStep prog ⟨state, t.head, t.cells⟩ ⟨next, tn.head, tn.cells⟩
            unfold SnapStep
            dsimp only
            exact hstep

/-- C4: with tracing on, `runProgram` returns the log; its length is one more
than the number of executed transitions; its first snapshot is the initial
configuration; and each later snapshot is the previous one advanced by exactly
the matched transition. With tracing off, `runProgram` returns no value. -/
theorem trace_contract :
    (∀ (t : Tape) (prog : Program) (limit : Nat) (r : RunResult),
        runProgram t prog limit true = .ok r →
        r.ret = some r.log ∧
        r.log.length = r.steps + 1 ∧
        r.log.head? = some ⟨1, t.head, t.cells⟩ ∧
        List.Chain' (SnapStep prog) r.log) ∧
    (∀ (t : Tape) (prog : Program) (limit : Nat) (r : RunResult),
        runProgram t prog limit false = .ok r → r.ret = none) := by
  constructor
  · intro t prog limit r hrun
    unfold runProgram at hrun
    simp only [eq_self_iff_true, if_true] at hrun
    cases hloop : runLoop prog true limit 1 t [⟨1, t.head, t.cells⟩] with
    | error e => rw [hloop] at hrun; simp at hrun
    | ok q =>
      obtain ⟨s, t2, log2, n⟩ := q
      rw [hloop] at hrun
      simp only [Except.ok.injEq] at hrun
      obtain ⟨ext, hext, hlen, hchain⟩ :=
        runLoop_log_spec prog limit 1 t [⟨1, t.head, t.cells⟩] s t2 log2 n hloop
      subst hrun
      refine ⟨rfl, ?_, ?_, ?_⟩
      · dsimp only
        rw [hext]
        simp only [List.length_append, List.length_singleton]
        omega
      · dsimp only
        rw [hext, List.singleton_append]
        rfl
      · dsimp only
        rw [hext, List.singleton_append]
        exact hchain
  · intro t prog limit r hrun
    unfold runProgram at hrun
    simp only [Bool.false_eq_true, if_false] at hrun
    cases hloop : runLoop prog false limit 1 t [] with
    | error e => rw [hloop] at hrun; simp at hrun
    | ok q =>
      obtain ⟨s, t2, log2, n⟩ := q
      rw [hloop] at hrun
      simp only [Except.ok.injEq] at hrun
      subst hrun
      rfl

/-- C4 witness: the two-step write-then-move run on a single-cell zero tape,
traced, and the same run untraced. -/
theorem trace_contract_witness :
    ((⟨⟨[1, 0], 1⟩, 2, 2,
        [⟨1, 0, [0]⟩, ⟨1, 0, [1]⟩, ⟨2, 1, [1, 0]⟩],
        some [⟨1, 0, [0]⟩, ⟨1, 0, [1]⟩, ⟨2, 1, [1, 0]⟩]⟩ : RunResult).ret =
      some [⟨1, 0, [0]⟩, ⟨1, 0, [1]⟩, ⟨2, 1, [1, 0]⟩] ∧
     ([⟨1, 0, [0]⟩, ⟨1, 0, [1]⟩, ⟨2, 1, [1, 0]⟩] : List Snapshot).length = 2 + 1 ∧
     ([⟨1, 0, [0]⟩, ⟨1, 0, [1]⟩, ⟨2, 1, [1, 0]⟩] : List Snapshot).head? =
       some ⟨1, 0, [0]⟩ ∧
     List.Chain' (SnapStep [((1, 0), ("W", 1, 1)), ((1, 1), ("R", 1, 2))])
       [⟨1, 0, [0]⟩, ⟨1, 0, [1]⟩, ⟨2, 1, [1, 0]⟩]) ∧
    (⟨⟨[1, 0], 1⟩, 2, 2, [], none⟩ : RunResult).ret = none := by
  constructor
  · exact trace_contract.1 ⟨[0], 0⟩ [((1, 0), ("W", 1, 1)), ((1, 1), ("R", 1, 2))] 10
      ⟨⟨[1, 0], 1⟩, 2, 2,
        [⟨1, 0, [0]⟩, ⟨1, 0, [1]⟩, ⟨2, 1, [1, 0]⟩],
        some [⟨1, 0, [0]⟩, ⟨1, 0, [1]⟩, ⟨2, 1, [1, 0]⟩]⟩ (by rfl)
  · exact trace_contract.2 ⟨[0], 0⟩ [((1, 0), ("W", 1, 1)), ((1, 1), ("R", 1, 2))] 10
      ⟨⟨[1, 0], 1⟩, 2, 2, [], none⟩ (by rfl)

/-! ### C6: read/write round-trip, also across moves -/

/-- Number of zero cells a single `_move` prepends on the left. -/
def movePrepends (t : Tape) (num : Int) : Nat :=
  if t.head + num < 0 then (t.head + num).natAbs else 0

/-- Number of zero cells a single `_move` appends on the right. -/
def moveAppends (t : Tape) (num : Int) : Nat :=
  if t.head + num < 0 then 0
  else if (t.cells.length : Int) ≤ t.head + num then
    (t.head + num - t.cells.length + 1).toNat
  else 0

/-- Applying a whole sequence of `_move`s. -/
def applyMoves : Tape → List Int → Tape
  | t, [] => t
  | t, num :: rest => applyMoves (t.move num) rest

/-- Total number of cells prepended over a sequence of moves, i.e. by how much
the index of every originally materialized cell has shifted. -/
def prependsAlong : Tape → List Int → Nat
  | _, [] => 0
  | t, num :: rest => movePrepends t num + prependsAlong (t.move num) rest

/-- One `_move` sandwiches the old cells between freshly prepended and freshly
appended zero blocks. -/
lemma move_cells_shape (t : Tape) (num : Int) :
    (t.move num).cells =
      List.replicate (movePrepends t num) 0 ++ t.cells ++
        List.replicate (moveAppends t num) 0 := by
  unfold movePrepends moveAppends
  simp only [Tape.move]
  split_ifs with h0 h1
  · simp
  · simp
  · simp

/-- A sequence of moves sandwiches the old cells between `prependsAlong` zeros
on the left and some zeros on the right. -/
lemma applyMoves_shape :
    ∀ (ms : List Int) (t : Tape),
      ∃ k : Nat, (applyMoves t ms).cells =
        List.replicate (prependsAlong t ms) 0 ++ t.cells ++ List.replicate k 0 := by
  intro ms
  induction ms with
  | nil =>
    intro t
    exact ⟨0, by simp [applyMoves, prependsAlong]⟩
  | cons num rest ih =>
    intro t
    obtain ⟨k2, hk2⟩ := ih (t.move num)
    refine ⟨moveAppends t num + k2, ?_⟩
    show (applyMoves (t.move num) rest).cells = _
    rw [hk2, move_cells_shape]
    simp only [prependsAlong]
    rw [Nat.add_comm (movePrepends t num) (prependsAlong (Tape.move t num) rest)]
    rw [List.replicate_add (prependsAlong (Tape.move t num) rest) (movePrepends t num)]
    rw [List.replicate_add (moveAppends t num) k2]
    simp only [List.append_assoc]

/-- C6: writing `x` at the head then reading immediately returns `x`; the
write changes no other cell; and after any sequence of moves that brings the
head back onto that same cell (its index shifted by whatever was prepended
meanwhile), reading still returns `x`. -/
theorem read_write_round_trip :
    ∀ (t : Tape) (x : Int) (t1 : Tape) (ms : List Int),
      0 ≤ t.head → t.head < (t.cells.length : Int) →
      t.write x = some t1 →
      t1.read = some x ∧
      (∀ i : Nat, i ≠ t.head.toNat → t1.cells[i]? = t.cells[i]?) ∧
      ((applyMoves t1 ms).head = t1.head + (prependsAlong t1 ms : Int) →
        (applyMoves t1 ms).read = some x) := by
  intro t x t1 ms h0 h1 hw
  have hinv : t.HeadInv := ⟨h0, h1⟩
  rw [Tape.write_of_inv t x hinv] at hw
  injection hw with hw
  subst hw
  have hlen : (t.cells.set t.head.toNat x).length = t.cells.length :=
    List.length_set t.cells t.head.toNat x
  have hidx : t.head.toNat < t.cells.length := by omega
  refine ⟨?_, ?_, ?_⟩
  · rw [Tape.read_of_nonneg ⟨t.cells.set t.head.toNat x, t.head⟩ h0]
    dsimp only
    exact List.getElem?_set_self (by omega)
  · intro i hi
    dsimp only
    exact List.getElem?_set_ne (Ne.symm hi)
  · intro hhead
    obtain ⟨k, hcells⟩ := applyMoves_shape ms ⟨t.cells.set t.head.toNat x, t.head⟩
    have hTnn : 0 ≤ (applyMoves ⟨t.cells.set t.head.toNat x, t.head⟩ ms).head := by
      rw [hhead]
      dsimp only
      omega
    rw [Tape.read_of_nonneg _ hTnn, hcells]
    have hidx2 : (applyMoves ⟨t.cells.set t.head.toNat x, t.head⟩ ms).head.toNat =
        prependsAlong ⟨t.cells.set t.head.toNat x, t.head⟩ ms + t.head.toNat := by
      rw [hhead]
      dsimp only
      omega
    rw [hidx2]
    rw [List.getElem?_append_left (by
      rw [List.length_append, List.length_replicate, hlen]
      omega)]
    rw [List.getElem?_append_right (by
      rw [List.length_replicate]
      omega)]
    rw [List.length_replicate]
    have hsub : prependsAlong ⟨t.cells.set t.head.toNat x, t.head⟩ ms + t.head.toNat -
        prependsAlong ⟨t.cells.set t.head.toNat x, t.head⟩ ms = t.head.toNat := by
      omega
    rw [hsub]
    exact List.getElem?_set_self (by omega)

/-- C6 witness: write 5 at head 0 of `[7, 8]`, move two cells left (forcing a
two-cell extension) and two cells right, landing back on the written cell. -/
theorem read_write_round_trip_witness :
    Tape.read ⟨[5, 8], 0⟩ = some 5 ∧
    (applyMoves ⟨[5, 8], 0⟩ [-2, 2]).read = some 5 := by
  have h := read_write_round_trip ⟨[7, 8], 0⟩ 5 ⟨[5, 8], 0⟩ [-2, 2]
    (by decide) (by decide) (by decide)
  exact ⟨h.1, h.2.2 (by decide)⟩

/-! ### C7: the program-file parser on well-formed input -/

/-- The mapping of one instruction line as the spec describes it: key
`(currentState, currentValue)`; `L`/`R` become a one-cell move with parameter
1, `0`/`1` become a Write of that literal; `newState` is carried along. `none`
for anything else (this is the reference definition the parser is compared
against, written from the spec text, not from the code). -/
def specLineEntry (line : String) : Option ProgEntry :=
  match lineFields line with
  | [s, v, a, n] =>
    match parseInt? s, parseInt? v, parseInt? n with
    | some cs, some cv, some ns =>
      if a = "L" then some ((cs, cv), ("L", 1, ns))
      else if a = "R" then some ((cs, cv), ("R", 1, ns))
      else if a = "0" then some ((cs, cv), ("W", 0, ns))
      else if a = "1" then some ((cs, cv), ("W", 1, ns))
      else none
    | _, _, _ => none
  | _ => none

/-- On well-formed lines the reading loop builds exactly the spec's entries,
newest first (Python dict insertion prepends in lookup order), in front of the
accumulator. -/
lemma readMinimalProgramGo_spec :
    ∀ (lines : List String) (acc : Program),
      (∀ line ∈ lines, line = "" ∨ (specLineEntry line).isSome) →
      readMinimalProgramGo lines acc =
        some ((lines.filterMap specLineEntry).reverse ++ acc) := by
  intro lines
  induction lines with
  | nil =>
    intro acc _
    simp [readMinimalProgramGo]
  | cons line rest ih =>
    intro acc hwf
    have hline := hwf line (by simp)
    have hrest : ∀ l ∈ rest, l = "" ∨ (specLineEntry l).isSome :=
      fun l hl => hwf l (by simp [hl])
    rcases hline with hblank | hsome
    · subst hblank
      have hlf : lineFields "" = [] := rfl
      have hnone : specLineEntry "" = none := rfl
      rw [readMinimalProgramGo.eq_2, hlf]
      dsimp only
      rw [ih acc hrest]
      simp [List.filterMap_cons, hnone]
    · rcases hlf : lineFields line with _ | ⟨f0, _ | ⟨f1, _ | ⟨f2, _ | ⟨f3, _ | ⟨f4, tl⟩⟩⟩⟩⟩
      all_goals (unfold specLineEntry at hsome; rw [hlf] at hsome; dsimp only at hsome)
      · simp at hsome
      · simp at hsome
      · simp at hsome
      · simp at hsome
      case cons.cons.cons.cons.cons => simp at hsome
      case cons.cons.cons.cons.nil =>
        cases hc0 : parseInt? f0 with
        | none => rw [hc0] at hsome; simp at hsome
        | some cs =>
        rw [hc0] at hsome
        cases hc1 : parseInt? f1 with
        | none => rw [hc1] at hsome; simp at hsome
        | some cv =>
        rw [hc1] at hsome
        cases hc3 : parseInt? f3 with
        | none => rw [hc3] at hsome; simp at hsome
        | some ns =>
        rw [hc3] at hsome
        dsimp only at hsome
        have htok : f2 = "L" ∨ f2 = "R" ∨ f2 = "0" ∨ f2 = "1" := by
          by_contra hcon
          push_neg at hcon
          obtain ⟨hL, hR, h0, h1⟩ := hcon
          rw [if_neg hL, if_neg hR, if_neg h0, if_neg h1] at hsome
          simp at hsome
        have key : specLineEntry line =
            some ((cs, cv),
              ((if f2 = "R" ∨ f2 = "L" then f2 else "W"),
               (if f2 = "0" then (0 : Int) else 1), ns)) := by
          rcases htok with h | h | h | h <;>
            subst h <;>
            simp [specLineEntry, hlf, hc0, hc1, hc3]
        have hgo : readMinimalProgramGo (line :: rest) acc =
            readMinimalProgramGo rest
              (((cs, cv),
                ((if f2 = "R" ∨ f2 = "L" then f2 else "W"),
                 (if f2 = "0" then (0 : Int) else 1), ns)) :: acc) := by
          rw [readMinimalProgramGo.eq_2, hlf]
          dsimp only
          rw [hc0, hc1, hc3]
        rw [hgo, ih _ hrest]
        rw [List.filterMap_cons_some key]
        simp [List.reverse_cons, List.append_assoc]

/-- C7: on a file whose non-blank lines each hold four space-separated fields
`currentState currentValue action newState` with integer states/values and
action among `L R 0 1`, `readMinimalProgram` returns exactly the entries the
spec describes (dict insertion order, latest first); blank lines contribute
nothing. -/
theorem parser_correct :
    ∀ lines : List String,
      (∀ line ∈ lines, line = "" ∨ (specLineEntry line).isSome) →
      readMinimalProgram lines = some ((lines.filterMap specLineEntry).reverse) := by
  intro lines hwf
  unfold readMinimalProgram
  rw [readMinimalProgramGo_spec lines [] hwf]
  simp

/-- C7 witness: a two-instruction file with a blank middle line. -/
theorem parser_correct_witness :
    readMinimalProgram ["1 0 R 2", "", "2 1 0 3"] =
      some [((2, 1), ("W", 0, 3)), ((1, 0), ("R", 1, 2))] := by
  have h := parser_correct ["1 0 R 2", "", "2 1 0 3"] (by decide)
  rw [h]
  rfl
